import Mathlib

/-!
Shallow embedding of the eget install-log browser (src/app.rs, src/log.rs,
src/main.rs) and verification of its specification claims.

Rust strings are modelled as lists of characters; `str::to_lowercase` is
modelled as the character-wise lower-casing map.  Filesystem reads
(`fs::read_to_string`, `fs::metadata`) and the RFC 3339 timestamp parser of
the chrono crate are external effects or external library code, so they enter
the embedding as explicit parameters: an `Option` read result, a
`stat : Str → Option Nat` size oracle, and a `parseTs : Str → Option Int`
parse function (timestamps are modelled by their instant on a linear
time-line, which is what `DateTime<Utc>` comparison uses).
-/

namespace Eget

/-- Characters of a Rust string. -/
abbrev Str := List Char

/-- Character-wise lower-casing, the model of `str::to_lowercase`. -/
def lowerStr (s : Str) : Str := s.map Char.toLower

/-- Tests whether the first list begins the second, helper of `containsSub`. -/
def beginsWith : Str → Str → Bool
  | [], _ => true
  | _ :: _, [] => false
  | p :: ps, c :: cs => p == c && beginsWith ps cs

/-- Model of `str::contains`: the pattern occurs contiguously in the haystack. -/
def containsSub : Str → Str → Bool
  | [], pat => beginsWith pat []
  | c :: rest, pat => beginsWith pat (c :: rest) || containsSub rest pat

/-- Splits a list at every occurrence of the delimiter, the model of
`str::split`; the result is always non-empty. -/
def splitOnChar (d : Char) : Str → List Str
  | [] => [[]]
  | c :: rest =>
    match splitOnChar d rest with
    | [] => [[]]
    | p :: ps => if c = d then [] :: p :: ps else (c :: p) :: ps

/-- Model of `std::path::Path::file_name` followed by `unwrap_or("")`: the
last path component after dropping empty and current-directory components,
and the empty string when the path has no final normal component (root paths,
the empty path, or a path ending in a parent-directory component). -/
def fileName (p : Str) : Str :=
  let comps := (splitOnChar '/' p).filter (fun c => !(c == []) && c != ".".toList)
  match comps.getLast? with
  | none => []
  | some c => if c = "..".toList then [] else c

/-- One parsed install-log record, `InstallEntry` of src/log.rs. -/
structure InstallEntry where
  timestamp : Int
  repo : Str
  path : Str
  removed : Bool
  size : Option Nat
deriving DecidableEq

/-- The two input modes of src/app.rs. -/
inductive InputMode where
  | Normal
  | Filter
deriving DecidableEq

/-- The selection state, `App` of src/app.rs. -/
structure App where
  all_entries : List InstallEntry
  filtered_entries : List Nat
  selected : Nat
  input_mode : InputMode
  filter_input : Str
deriving DecidableEq

/-- Constructor `App::new`: the filtered view is the identity index range,
the cursor starts at zero. -/
def App.new (entries : List InstallEntry) : App :=
  { all_entries := entries
    filtered_entries := List.range entries.length
    selected := 0
    input_mode := InputMode.Normal
    filter_input := [] }

/-- Cursor advance `App::next`: a no-op on an empty filtered view, otherwise
one step forward modulo the filtered length. -/
def App.next (app : App) : App :=
  if app.filtered_entries.isEmpty then app
  else { app with selected := (app.selected + 1) % app.filtered_entries.length }

/-- Cursor retreat `App::prev`: a no-op on an empty filtered view, otherwise
one step back, wrapping from the first position to the last. -/
def App.prev (app : App) : App :=
  if app.filtered_entries.isEmpty then app
  else if app.selected = 0 then
    { app with selected := app.filtered_entries.length - 1 }
  else
    { app with selected := app.selected - 1 }

/-- Accessor `App::current`: the record the cursor points at, when any. -/
def App.current (app : App) : Option InstallEntry :=
  match app.filtered_entries.get? app.selected with
  | none => none
  | some idx => app.all_entries.get? idx

/-- The filter predicate of `App::apply_filter`: the lower-cased filter text
occurs in the lower-cased file name of the path, in the lower-cased repo, or
in the lower-cased full path. -/
def matchesFilter (filter : Str) (e : InstallEntry) : Bool :=
  containsSub (lowerStr (fileName e.path)) filter
    || containsSub (lowerStr e.repo) filter
    || containsSub (lowerStr e.path) filter

/-- Filter recomputation `App::apply_filter`: rebuilds `filtered_entries`
from `all_entries` and the lower-cased filter text, then clamps the cursor. -/
def App.apply_filter (app : App) : App :=
  let filter := lowerStr app.filter_input
  let filtered :=
    if filter.isEmpty then List.range app.all_entries.length
    else (app.all_entries.enum.filter (fun p => matchesFilter filter p.2)).map
      (fun p => p.1)
  let selected :=
    if app.selected ≥ filtered.length then
      if filtered.isEmpty then 0 else filtered.length - 1
    else app.selected
  { app with filtered_entries := filtered, selected := selected }

/-- Decimal digits of a natural number, the model of integer `{}` formatting. -/
def natStr (n : Nat) : Str := Nat.toDigits 10 n

/-- Rounding of the fraction `num / den` to the nearest integer, ties going to
the even neighbour, which is how Rust rounds a binary float when printing it
with a fixed precision. -/
def roundHalfEven (num den : Nat) : Nat :=
  let q := num / den
  let r := num % den
  if 2 * r < den then q
  else if den < 2 * r then q + 1
  else if q % 2 = 0 then q else q + 1

/-- One-decimal-place rendering of `num / den`, the model of Rust
`format!("\x7b:.1\x7d", num as f64 / den as f64)`: for `den` a power of two
and `num < 2 ^ 53` the float quotient is exact, so the printed digits are the
correctly rounded decimal of the exact fraction. -/
def fmt1 (num den : Nat) : Str :=
  let n10 := roundHalfEven (num * 10) den
  natStr (n10 / 10) ++ '.' :: natStr (n10 % 10)

/-- Human-readable size, `InstallEntry::size_human` of src/log.rs. -/
def size_human (size : Option Nat) : Str :=
  match size with
  | some size =>
    if size < 1024 then natStr size ++ " B".toList
    else if size < 1024 * 1024 then fmt1 size 1024 ++ " KB".toList
    else if size < 1024 * 1024 * 1024 then
      fmt1 size (1024 * 1024) ++ " MB".toList
    else fmt1 size (1024 * 1024 * 1024) ++ " GB".toList
  | none => "N/A".toList

/-- Removal of a single carriage return at the end of a line, the normalising
step Rust `str::lines` applies to every newline-terminated line. -/
def stripCR (l : Str) : Str :=
  match l.getLast? with
  | some c => if c = '\r' then l.dropLast else l
  | none => l

/-- Lines obtained from the pieces of a line-feed split: every piece except
the final one was newline-terminated and loses one trailing carriage return,
and the final piece is dropped when empty. -/
def linesOfPieces : List Str → List Str
  | [] => []
  | [p] => if p = [] then [] else [p]
  | p :: ps => stripCR p :: linesOfPieces ps

/-- Model of Rust `str::lines`: split at every line feed, strip one trailing
carriage return from every newline-terminated line, and drop the empty
remainder after a final newline. -/
def rustLines (s : Str) : List Str :=
  linesOfPieces (splitOnChar '\n' s)

/-- Model of `Vec::join("\n")`. -/
def joinNL : List Str → Str
  | [] => []
  | [l] => l
  | l :: ls => l ++ '\n' :: joinNL ls

/-- Parsing of one log line inside `load_log` of src/log.rs, with the chrono
RFC 3339 parser and the filesystem size lookup abstracted as `parseTs` and
`stat`. -/
def parseLine (parseTs : Str → Option Int) (stat : Str → Option Nat)
    (line : Str) : Option InstallEntry :=
  let parts := splitOnChar '\t' line
  if parts.length < 3 then none
  else
    let ts_raw := parts.getD 0 []
    let repo := parts.getD 1 []
    let path := parts.getD 2 []
    let removed := ((parts.get? 3).map (fun s => s == "removed".toList)).getD false
    match parseTs ts_raw with
    | none => none
    | some ts =>
      let size := if !removed then stat path else none
      some { timestamp := ts, repo := repo, path := path,
             removed := removed, size := size }

/-- Log loading, `load_log` of src/log.rs: a failed read behaves as empty
contents, lines are parsed leniently, and the surviving records are sorted by
timestamp descending with Rust's stable `sort_by`, modelled by the stable
`List.mergeSort`. -/
def load_log (parseTs : Str → Option Int) (stat : Str → Option Nat)
    (readResult : Option Str) : List InstallEntry :=
  let contents := readResult.getD []
  let entries := (rustLines contents).filterMap (parseLine parseTs stat)
  entries.mergeSort (fun a b => decide (b.timestamp ≤ a.timestamp))

/-- The per-line rewrite inside `mark_as_removed` of src/log.rs. -/
def markLine (path line : Str) : Str :=
  let parts := splitOnChar '\t' line
  if 3 ≤ parts.length ∧ parts.getD 2 [] = path then
    if parts.length = 3 then line ++ '\t' :: "removed".toList else line
  else line

/-- Content transformation of `mark_as_removed` of src/log.rs: split the log
into lines, rewrite each line, and join with single newlines. -/
def mark_as_removed (path contents : Str) : Str :=
  joinNL ((rustLines contents).map (markLine path))

/-- Outcome of one press of the delete key: the resulting log contents and
whether `mark_as_removed` ran. -/
structure DeleteStep where
  newLog : Str
  markInvoked : Bool
deriving DecidableEq

/-- The delete branch of `run_app` in src/main.rs: nothing happens without a
current record; otherwise the log is marked only when the filesystem
`remove_file` call succeeded, which the parameter `removeOk` reports. -/
def handleDeleteKey (removeOk : Bool) (app : App) (logContents : Str) :
    DeleteStep :=
  match app.current with
  | none => { newLog := logContents, markInvoked := false }
  | some entry =>
    if removeOk then
      { newLog := mark_as_removed entry.path logContents, markInvoked := true }
    else
      { newLog := logContents, markInvoked := false }

/-- The operations of claim C1 on the selection state: cursor moves and a
filter-text edit followed by `apply_filter`. -/
inductive Op where
  | next
  | prev
  | applyFilter (f : Str)

/-- One operation applied to the state. -/
def applyOp (app : App) : Op → App
  | Op.next => app.next
  | Op.prev => app.prev
  | Op.applyFilter f => App.apply_filter { app with filter_input := f }

/-- A sequence of operations applied in order. -/
def runOps (app : App) : List Op → App
  | [] => app
  | op :: ops => runOps (applyOp app op) ops

/-- The cursor invariant: a valid index into the filtered view when it is
non-empty, and zero when it is empty. -/
def cursorOk (app : App) : Prop :=
  if app.filtered_entries.isEmpty then app.selected = 0
  else app.selected < app.filtered_entries.length

/-- A concrete two-record selection state used to instantiate theorems with
hypotheses on concrete inputs. -/
def sampleApp : App :=
  App.new [{ timestamp := 0, repo := [], path := [], removed := false,
             size := none },
           { timestamp := 1, repo := [], path := [], removed := false,
             size := none }]

/-- A concrete selection state carrying a non-empty filter text. -/
def sampleFilterApp : App :=
  { all_entries :=
      [{ timestamp := 0, repo := "aa".toList, path := "/bin/tool".toList,
         removed := false, size := none },
       { timestamp := 1, repo := "bb".toList, path := "/bin/other".toList,
         removed := false, size := none }]
    filtered_entries := [0, 1]
    selected := 0
    input_mode := InputMode.Normal
    filter_input := "TOOL".toList }

theorem splitOnChar_cons (d c : Char) (rest : Str) :
    splitOnChar d (c :: rest) =
      match splitOnChar d rest with
      | [] => [[]]
      | p :: ps => if c = d then [] :: p :: ps else (c :: p) :: ps := rfl

theorem splitOnChar_ne_nil (d : Char) (l : Str) : splitOnChar d l ≠ [] := by
  cases l with
  | nil => simp [splitOnChar]
  | cons c rest =>
    rw [splitOnChar_cons]
    cases h : splitOnChar d rest with
    | nil => simp
    | cons p ps =>
      dsimp only
      split <;> simp

theorem exists_splitOnChar_cons (d : Char) (l : Str) :
    ∃ p ps, splitOnChar d l = p :: ps := by
  cases h : splitOnChar d l with
  | nil => exact absurd h (splitOnChar_ne_nil d l)
  | cons p ps => exact ⟨p, ps, rfl⟩

theorem splitOnChar_append (d : Char) (a b : Str) :
    splitOnChar d (a ++ d :: b) = splitOnChar d a ++ splitOnChar d b := by
  induction a with
  | nil =>
    obtain ⟨p, ps, hp⟩ := exists_splitOnChar_cons d b
    show splitOnChar d (d :: b) = splitOnChar d [] ++ splitOnChar d b
    rw [splitOnChar_cons, hp]
    simp [splitOnChar]
  | cons c as ih =>
    obtain ⟨q, qs, hq⟩ := exists_splitOnChar_cons d as
    rw [List.cons_append, splitOnChar_cons, ih, hq, List.cons_append,
      splitOnChar_cons, hq]
    dsimp only
    split <;> simp

theorem splitOnChar_of_not_mem (d : Char) (l : Str) (h : d ∉ l) :
    splitOnChar d l = [l] := by
  induction l with
  | nil => rfl
  | cons c rest ih =>
    rw [splitOnChar_cons, ih (fun hm => h (List.mem_cons_of_mem _ hm))]
    dsimp only
    rw [if_neg (fun hc => h (by rw [← hc]; exact List.mem_cons_self _ _))]

theorem not_mem_of_mem_splitOnChar {d : Char} {l p : Str}
    (hp : p ∈ splitOnChar d l) : d ∉ p := by
  induction l generalizing p with
  | nil =>
    simp only [splitOnChar, List.mem_singleton] at hp
    simp [hp]
  | cons c rest ih =>
    obtain ⟨q, qs, hq⟩ := exists_splitOnChar_cons d rest
    rw [splitOnChar_cons, hq] at hp
    dsimp only at hp
    by_cases hc : c = d
    · rw [if_pos hc] at hp
      rcases List.mem_cons.mp hp with rfl | hp
      · simp
      · exact ih (hq ▸ hp)
    · rw [if_neg hc] at hp
      rcases List.mem_cons.mp hp with rfl | hp
      · intro hm
        rcases List.mem_cons.mp hm with rfl | hm
        · exact hc rfl
        · exact ih (hq ▸ List.mem_cons_self q qs) hm
      · exact ih (hq ▸ List.mem_cons_of_mem q hp)

theorem stripCR_subset {l : Str} : ∀ c ∈ stripCR l, c ∈ l := by
  intro c h
  unfold stripCR at h
  split at h
  · split at h
    · exact (List.dropLast_sublist l).subset h
    · exact h
  · exact h

theorem linesOfPieces_single (p : Str) :
    linesOfPieces [p] = if p = [] then [] else [p] := rfl

theorem linesOfPieces_cons_cons (p q : Str) (qs : List Str) :
    linesOfPieces (p :: q :: qs) = stripCR p :: linesOfPieces (q :: qs) := rfl

theorem mem_linesOfPieces {ps : List Str} {x : Str} (h : x ∈ linesOfPieces ps) :
    ∃ p ∈ ps, x = stripCR p ∨ x = p := by
  induction ps with
  | nil => simp [linesOfPieces] at h
  | cons p ps ih =>
    cases ps with
    | nil =>
      rw [linesOfPieces_single] at h
      split at h
      · simp at h
      · rw [List.mem_singleton] at h
        exact ⟨p, List.mem_cons_self p [], Or.inr h⟩
    | cons q qs =>
      rw [linesOfPieces_cons_cons] at h
      rcases List.mem_cons.mp h with rfl | h
      · exact ⟨p, List.mem_cons_self _ _, Or.inl rfl⟩
      · obtain ⟨r, hr, hc⟩ := ih h
        exact ⟨r, List.mem_cons_of_mem p hr, hc⟩

theorem not_nl_of_mem_rustLines {s l : Str} (h : l ∈ rustLines s) :
    ('\n' : Char) ∉ l := by
  obtain ⟨p, hp, hcase⟩ := mem_linesOfPieces h
  have hd : ('\n' : Char) ∉ p := not_mem_of_mem_splitOnChar hp
  rcases hcase with rfl | rfl
  · exact fun hc => hd (stripCR_subset _ hc)
  · exact hd

theorem joinNL_cons_cons (l m : Str) (ms : List Str) :
    joinNL (l :: m :: ms) = l ++ '\n' :: joinNL (m :: ms) := rfl

theorem rustLines_joinNL {ls : List Str}
    (h1 : ∀ l ∈ ls, ('\n' : Char) ∉ l)
    (h2 : ∀ l ∈ ls, stripCR l = l)
    (h3 : ls.getLast? ≠ some []) :
    rustLines (joinNL ls) = ls := by
  induction ls with
  | nil => rfl
  | cons l ls ih =>
    cases ls with
    | nil =>
      have hl : l ≠ [] := by
        intro e
        exact h3 (by simp [e])
      show rustLines (joinNL [l]) = [l]
      have hj : joinNL [l] = l := rfl
      rw [hj]
      unfold rustLines
      rw [splitOnChar_of_not_mem '\n' l (h1 l (List.mem_cons_self l [])),
        linesOfPieces_single, if_neg hl]
    | cons m ms =>
      obtain ⟨q, qs, hq⟩ := exists_splitOnChar_cons '\n' (joinNL (m :: ms))
      have hrest : rustLines (joinNL (m :: ms)) = m :: ms := by
        refine ih (fun x hx => h1 x (List.mem_cons_of_mem l hx))
          (fun x hx => h2 x (List.mem_cons_of_mem l hx)) ?_
        rw [List.getLast?_cons_cons] at h3
        exact h3
      rw [joinNL_cons_cons]
      unfold rustLines
      rw [splitOnChar_append, splitOnChar_of_not_mem '\n' l
          (h1 l (List.mem_cons_self l _)),
        hq, List.singleton_append, linesOfPieces_cons_cons,
        h2 l (List.mem_cons_self l _), ← hq]
      unfold rustLines at hrest
      rw [hrest]

theorem markLine_eq (path line : Str) :
    markLine path line =
      if (splitOnChar '\t' line).length = 3 ∧
          (splitOnChar '\t' line).getD 2 [] = path
      then line ++ '\t' :: "removed".toList else line := by
  unfold markLine
  by_cases hc : (splitOnChar '\t' line).length = 3 ∧
      (splitOnChar '\t' line).getD 2 [] = path
  · rw [if_pos hc, if_pos ⟨le_of_eq hc.1.symm, hc.2⟩, if_pos hc.1]
  · rw [if_neg hc]
    by_cases ho : 3 ≤ (splitOnChar '\t' line).length ∧
        (splitOnChar '\t' line).getD 2 [] = path
    · rw [if_pos ho, if_neg (fun h3 => hc ⟨h3, ho.2⟩)]
    · rw [if_neg ho]

/-- C3: the mark-removed rewrite appends the marker field exactly to the
lines with exactly three tab-separated fields whose third field equals the
target path, leaves every other line unchanged, and preserves the line
order. -/
theorem c3_mark_appends_only_to_matching_lines (path contents : Str) :
    mark_as_removed path contents =
      joinNL ((rustLines contents).map (fun l =>
        if (splitOnChar '\t' l).length = 3 ∧
            (splitOnChar '\t' l).getD 2 [] = path
        then l ++ '\t' :: "removed".toList else l)) := by
  unfold mark_as_removed
  exact congrArg joinNL (List.map_congr_left (fun l _ => markLine_eq path l))

/-- C4, counterexample: marking twice is not always the same as marking
once; on the contents consisting of two line feeds the first rewrite yields
a single line feed and the second an empty file. -/
theorem c4_counterexample :
    mark_as_removed "x".toList (mark_as_removed "x".toList "\n\n".toList)
      ≠ mark_as_removed "x".toList "\n\n".toList := by decide

theorem splitTab_append_marker (line : Str) :
    splitOnChar '\t' (line ++ '\t' :: "removed".toList)
      = splitOnChar '\t' line ++ ["removed".toList] := by
  rw [splitOnChar_append, splitOnChar_of_not_mem '\t' "removed".toList (by decide)]

theorem markLine_markLine (path line : Str) :
    markLine path (markLine path line) = markLine path line := by
  rw [markLine_eq path line]
  by_cases hc : (splitOnChar '\t' line).length = 3 ∧
      (splitOnChar '\t' line).getD 2 [] = path
  · rw [if_pos hc, markLine_eq, splitTab_append_marker]
    refine if_neg (fun hbad => ?_)
    have hlen := hbad.1
    rw [List.length_append, hc.1] at hlen
    simp at hlen
  · rw [if_neg hc, markLine_eq, if_neg hc]

theorem markLine_cases (path line : Str) :
    markLine path line = line ∨
      markLine path line = line ++ '\t' :: "removed".toList := by
  rw [markLine_eq]
  split
  · exact Or.inr rfl
  · exact Or.inl rfl

theorem markLine_not_nl {path line : Str} (h : ('\n' : Char) ∉ line) :
    ('\n' : Char) ∉ markLine path line := by
  rcases markLine_cases path line with he | he <;> rw [he]
  · exact h
  · intro hm
    rcases List.mem_append.mp hm with hm | hm
    · exact h hm
    · exact absurd hm (by decide)

theorem markLine_stripCR {path line : Str} (h : stripCR line = line) :
    stripCR (markLine path line) = markLine path line := by
  rcases markLine_cases path line with he | he <;> rw [he]
  · exact h
  · unfold stripCR
    have hg : (line ++ '\t' :: "removed".toList).getLast? = some 'd' := by
      rw [List.getLast?_append_cons]
      decide
    rw [hg]
    simp

theorem markLine_ne_nil {path line : Str} (h : line ≠ []) :
    markLine path line ≠ [] := by
  rcases markLine_cases path line with he | he <;> rw [he]
  · exact h
  · simp

/-- C4, amended: the mark-removed rewrite is idempotent on every log content
whose parsed lines carry no trailing carriage return and whose final parsed
line is non-empty; the unconditional statement fails because the first
rewrite drops a trailing empty line and normalises carriage-return line
endings. -/
theorem c4_mark_idempotent (path contents : Str)
    (hcr : ∀ l ∈ rustLines contents, stripCR l = l)
    (hlast : (rustLines contents).getLast? ≠ some []) :
    mark_as_removed path (mark_as_removed path contents)
      = mark_as_removed path contents := by
  unfold mark_as_removed
  have hrt : rustLines (joinNL ((rustLines contents).map (markLine path)))
      = (rustLines contents).map (markLine path) := by
    refine rustLines_joinNL ?_ ?_ ?_
    · intro l hl
      obtain ⟨p, hp, rfl⟩ := List.mem_map.mp hl
      exact markLine_not_nl (not_nl_of_mem_rustLines hp)
    · intro l hl
      obtain ⟨p, hp, rfl⟩ := List.mem_map.mp hl
      exact markLine_stripCR (hcr p hp)
    · rw [List.getLast?_map]
      intro hsome
      cases he : (rustLines contents).getLast? with
      | none => rw [he] at hsome; exact Option.noConfusion hsome
      | some p =>
        rw [he] at hsome
        have hp : markLine path p = [] := Option.some_injective _ hsome
        by_cases hpe : p = []
        · exact hlast (hpe ▸ he)
        · exact markLine_ne_nil hpe hp
  rw [hrt, List.map_map]
  exact congrArg joinNL (List.map_congr_left
    (fun l _ => markLine_markLine path l))

/-- Closed instantiation of the amended C4 theorem on a concrete well-formed
log content. -/
theorem c4_mark_idempotent_witness :
    mark_as_removed "p".toList
        (mark_as_removed "p".toList "t\ta\tp\nt\tb\tq".toList)
      = mark_as_removed "p".toList "t\ta\tp\nt\tb\tq".toList :=
  c4_mark_idempotent "p".toList "t\ta\tp\nt\tb\tq".toList (by decide) (by decide)

/-- C5: the delete handler runs the mark-removed step exactly when the
filesystem remove succeeded on a current record, and a failed remove leaves
the log contents untouched. -/
theorem c5_failed_remove_leaves_log_untouched (removeOk : Bool) (app : App)
    (logContents : Str) :
    (handleDeleteKey removeOk app logContents).markInvoked
        = (removeOk && app.current.isSome)
    ∧ (handleDeleteKey false app logContents).newLog = logContents := by
  unfold handleDeleteKey
  cases h : app.current with
  | none => simp
  | some e => cases removeOk <;> simp

/-- C9: size formatting prints plain bytes below 1024, one decimal digit in
the kibibyte, mebibyte and gibibyte ranges, the literal N/A for a missing
size, and the four sample values exactly as specified. -/
theorem c9_size_human_format :
    size_human none = "N/A".toList
    ∧ size_human (some 0) = "0 B".toList
    ∧ size_human (some 1023) = "1023 B".toList
    ∧ size_human (some 1536) = "1.5 KB".toList
    ∧ size_human (some 1572864) = "1.5 MB".toList
    ∧ (∀ s : Nat, s < 1024 → size_human (some s) = natStr s ++ " B".toList)
    ∧ (∀ s : Nat, 1024 ≤ s → s < 1024 * 1024 →
        ∃ a d, d < 10 ∧
          size_human (some s) = natStr a ++ '.' :: natStr d ++ " KB".toList)
    ∧ (∀ s : Nat, 1024 * 1024 ≤ s → s < 1024 * 1024 * 1024 →
        ∃ a d, d < 10 ∧
          size_human (some s) = natStr a ++ '.' :: natStr d ++ " MB".toList)
    ∧ (∀ s : Nat, 1024 * 1024 * 1024 ≤ s →
        ∃ a d, d < 10 ∧
          size_human (some s) = natStr a ++ '.' :: natStr d ++ " GB".toList) := by
  refine ⟨rfl, by decide, by decide, by decide, by decide, ?_, ?_, ?_, ?_⟩
  · intro s hs
    unfold size_human
    dsimp only
    rw [if_pos hs]
  · intro s h1 h2
    refine ⟨roundHalfEven (s * 10) 1024 / 10, roundHalfEven (s * 10) 1024 % 10,
      Nat.mod_lt _ (by norm_num), ?_⟩
    unfold size_human
    dsimp only
    rw [if_neg (Nat.not_lt.mpr h1), if_pos h2]
    unfold fmt1
    simp
  · intro s h1 h2
    refine ⟨roundHalfEven (s * 10) (1024 * 1024) / 10,
      roundHalfEven (s * 10) (1024 * 1024) % 10,
      Nat.mod_lt _ (by norm_num), ?_⟩
    unfold size_human
    dsimp only
    rw [if_neg (Nat.not_lt.mpr (le_trans (by norm_num) h1)),
      if_neg (Nat.not_lt.mpr h1), if_pos h2]
    unfold fmt1
    simp
  · intro s h1
    refine ⟨roundHalfEven (s * 10) (1024 * 1024 * 1024) / 10,
      roundHalfEven (s * 10) (1024 * 1024 * 1024) % 10,
      Nat.mod_lt _ (by norm_num), ?_⟩
    unfold size_human
    dsimp only
    rw [if_neg (Nat.not_lt.mpr (le_trans (by norm_num) h1)),
      if_neg (Nat.not_lt.mpr (le_trans (by norm_num) h1)),
      if_neg (Nat.not_lt.mpr h1)]
    unfold fmt1
    simp

/-- Closed instantiation of the byte branch of the size-formatting theorem. -/
theorem c9_size_human_format_witness :
    (512 : Nat) < 1024 ∧ size_human (some 512) = natStr 512 ++ " B".toList :=
  ⟨by decide, c9_size_human_format.2.2.2.2.2.1 512 (by decide)⟩

theorem next_filtered (app : App) :
    app.next.filtered_entries = app.filtered_entries := by
  unfold App.next
  split <;> rfl

theorem prev_filtered (app : App) :
    app.prev.filtered_entries = app.filtered_entries := by
  unfold App.prev
  split
  · rfl
  · split <;> rfl

theorem next_selected {app : App} (h : app.filtered_entries ≠ []) :
    app.next.selected = (app.selected + 1) % app.filtered_entries.length := by
  unfold App.next
  rw [if_neg (by simpa using h)]

theorem prev_selected {app : App} (h : app.filtered_entries ≠ []) :
    app.prev.selected =
      if app.selected = 0 then app.filtered_entries.length - 1
      else app.selected - 1 := by
  unfold App.prev
  rw [if_neg (by simpa using h)]
  split <;> rfl

theorem prev_selected_mod {app : App}
    (h : app.selected < app.filtered_entries.length) :
    app.prev.selected =
      (app.selected + (app.filtered_entries.length - 1))
        % app.filtered_entries.length := by
  have hne : app.filtered_entries ≠ [] := by
    intro e
    rw [e] at h
    exact Nat.not_lt_zero _ h
  rw [prev_selected hne]
  split
  · rw [(by assumption : app.selected = 0), Nat.zero_add,
      Nat.mod_eq_of_lt (by omega)]
  · have hs : 0 < app.selected := Nat.pos_of_ne_zero (by assumption)
    have he : app.selected + (app.filtered_entries.length - 1)
        = (app.selected - 1) + app.filtered_entries.length := by omega
    rw [he, Nat.add_mod_right, Nat.mod_eq_of_lt (by omega)]

theorem next_iter (app : App) (k : Nat)
    (h : app.selected < app.filtered_entries.length) :
    (App.next^[k] app).selected
        = (app.selected + k) % app.filtered_entries.length
    ∧ (App.next^[k] app).filtered_entries = app.filtered_entries := by
  induction k with
  | zero =>
    exact ⟨(Nat.mod_eq_of_lt h).symm, rfl⟩
  | succ k ih =>
    rw [Function.iterate_succ_apply']
    have hne : (App.next^[k] app).filtered_entries ≠ [] := by
      rw [ih.2]
      intro e
      rw [e] at h
      exact Nat.not_lt_zero _ h
    refine ⟨?_, by rw [next_filtered, ih.2]⟩
    rw [next_selected hne, ih.1, ih.2, Nat.mod_add_mod, Nat.add_assoc]

theorem prev_iter (app : App) (k : Nat)
    (h : app.selected < app.filtered_entries.length) :
    (App.prev^[k] app).selected
        = (app.selected + k * (app.filtered_entries.length - 1))
            % app.filtered_entries.length
    ∧ (App.prev^[k] app).filtered_entries = app.filtered_entries := by
  have hlen : 0 < app.filtered_entries.length := Nat.lt_of_le_of_lt (Nat.zero_le _) h
  induction k with
  | zero =>
    refine ⟨?_, rfl⟩
    show app.selected = (app.selected + 0 * (app.filtered_entries.length - 1))
        % app.filtered_entries.length
    rw [Nat.zero_mul, Nat.add_zero, Nat.mod_eq_of_lt h]
  | succ k ih =>
    rw [Function.iterate_succ_apply']
    have hsel : (App.prev^[k] app).selected < (App.prev^[k] app).filtered_entries.length := by
      rw [ih.1, ih.2]
      exact Nat.mod_lt _ hlen
    refine ⟨?_, by rw [prev_filtered, ih.2]⟩
    rw [prev_selected_mod hsel, ih.1, ih.2, Nat.mod_add_mod, Nat.succ_mul,
      Nat.add_assoc]

/-- C6: cursor movement is total and cyclic: both moves are no-ops on an
empty filtered view; on a view of length n the next move advances by one
modulo n and the previous move steps back by one wrapping from the first to
the last position; and n repetitions of either move restore the cursor. -/
theorem c6_cursor_moves_cyclic (app : App) :
    (app.filtered_entries = [] → app.next = app ∧ app.prev = app)
    ∧ (app.filtered_entries ≠ [] →
        app.next.selected = (app.selected + 1) % app.filtered_entries.length
        ∧ app.prev.selected =
            (if app.selected = 0 then app.filtered_entries.length - 1
             else app.selected - 1))
    ∧ (app.selected < app.filtered_entries.length →
        (App.next^[app.filtered_entries.length] app).selected = app.selected
        ∧ (App.prev^[app.filtered_entries.length] app).selected
            = app.selected) := by
  refine ⟨?_, fun h => ⟨next_selected h, prev_selected h⟩, fun h => ⟨?_, ?_⟩⟩
  · intro he
    constructor
    · unfold App.next
      rw [if_pos (by simp [he])]
    · unfold App.prev
      rw [if_pos (by simp [he])]
  · rw [(next_iter app app.filtered_entries.length h).1,
      Nat.add_mod_right, Nat.mod_eq_of_lt h]
  · rw [(prev_iter app app.filtered_entries.length h).1]
    have he : app.selected + app.filtered_entries.length
          * (app.filtered_entries.length - 1)
        = app.selected + (app.filtered_entries.length - 1)
          * app.filtered_entries.length := by
      rw [Nat.mul_comm]
    rw [he, Nat.add_mul_mod_self_right, Nat.mod_eq_of_lt h]

/-- Closed instantiation of the cursor-cycle theorem on a two-record state. -/
theorem c6_cursor_moves_cyclic_witness :
    (sampleApp.next.selected
        = (sampleApp.selected + 1) % sampleApp.filtered_entries.length)
    ∧ (App.next^[sampleApp.filtered_entries.length] sampleApp).selected
        = sampleApp.selected
    ∧ (App.prev^[sampleApp.filtered_entries.length] sampleApp).selected
        = sampleApp.selected :=
  ⟨((c6_cursor_moves_cyclic sampleApp).2.1 (by decide)).1,
   ((c6_cursor_moves_cyclic sampleApp).2.2 (by decide)).1,
   ((c6_cursor_moves_cyclic sampleApp).2.2 (by decide)).2⟩

theorem cursorOk_new (entries : List InstallEntry) : cursorOk (App.new entries) := by
  unfold cursorOk App.new
  cases entries <;> simp

theorem cursorOk_next {app : App} (h : cursorOk app) : cursorOk app.next := by
  unfold cursorOk at h ⊢
  rw [next_filtered]
  by_cases he : app.filtered_entries.isEmpty
  · rw [if_pos he] at h ⊢
    unfold App.next
    rw [if_pos he]
    exact h
  · rw [if_neg he] at h ⊢
    have hne : app.filtered_entries ≠ [] := by simpa using he
    rw [next_selected hne]
    exact Nat.mod_lt _ (Nat.lt_of_le_of_lt (Nat.zero_le _) h)

theorem cursorOk_prev {app : App} (h : cursorOk app) : cursorOk app.prev := by
  unfold cursorOk at h ⊢
  rw [prev_filtered]
  by_cases he : app.filtered_entries.isEmpty
  · rw [if_pos he] at h ⊢
    unfold App.prev
    rw [if_pos he]
    exact h
  · rw [if_neg he] at h ⊢
    have hne : app.filtered_entries ≠ [] := by simpa using he
    rw [prev_selected hne]
    split <;> omega

theorem cursorOk_apply_filter (app : App) : cursorOk app.apply_filter := by
  unfold cursorOk App.apply_filter
  dsimp only
  generalize (if (lowerStr app.filter_input).isEmpty then
      List.range app.all_entries.length
    else (app.all_entries.enum.filter
        (fun p => matchesFilter (lowerStr app.filter_input) p.2)).map
      (fun p => p.1)) = l
  cases l with
  | nil => simp
  | cons a t =>
    simp only [List.isEmpty_cons, Bool.false_eq_true, if_false]
    split
    · simp only [List.isEmpty_cons, Bool.false_eq_true, if_false,
        List.length_cons]
      omega
    · omega

theorem cursorOk_applyOp {app : App} (h : cursorOk app) (op : Op) :
    cursorOk (applyOp app op) := by
  cases op with
  | next => exact cursorOk_next h
  | prev => exact cursorOk_prev h
  | applyFilter f => exact cursorOk_apply_filter _

/-- C1: after construction and any sequence of cursor moves and filter
recomputations, the cursor is a valid index into the filtered view whenever
that view is non-empty, and zero when it is empty. -/
theorem c1_cursor_always_valid (entries : List InstallEntry) (ops : List Op) :
    cursorOk (runOps (App.new entries) ops) := by
  have hrun : ∀ (app : App), cursorOk app → ∀ l, cursorOk (runOps app l) := by
    intro app h l
    induction l generalizing app with
    | nil => exact h
    | cons op l ih => exact ih _ (cursorOk_applyOp h op)
  exact hrun _ (cursorOk_new entries) ops

/-- C2: for a non-empty filter text, the recomputed filtered view contains
an index exactly when the lower-cased filter occurs in the lower-cased file
name, repo, or full path of the record at that index, and the surviving
indices form a subsequence of the full index range in their original
order. -/
theorem c2_filter_membership (app : App) (hne : app.filter_input ≠ []) :
    (∀ i e, app.all_entries[i]? = some e →
      (i ∈ app.apply_filter.filtered_entries ↔
        (containsSub (lowerStr (fileName e.path)) (lowerStr app.filter_input)
          || containsSub (lowerStr e.repo) (lowerStr app.filter_input)
          || containsSub (lowerStr e.path) (lowerStr app.filter_input))
          = true))
    ∧ app.apply_filter.filtered_entries.Sublist
        (List.range app.all_entries.length) := by
  have hfe : (lowerStr app.filter_input).isEmpty = false := by
    cases hl : app.filter_input with
    | nil => exact absurd hl hne
    | cons c cs => simp [lowerStr, hl]
  have hfiltered : app.apply_filter.filtered_entries
      = (app.all_entries.enum.filter
          (fun p => matchesFilter (lowerStr app.filter_input) p.2)).map
        (fun p => p.1) := by
    simp only [App.apply_filter, hfe, Bool.false_eq_true, if_false]
  constructor
  · intro i e he
    rw [hfiltered]
    constructor
    · intro hi
      obtain ⟨pr, hpr, hfst⟩ := List.mem_map.mp hi
      obtain ⟨hmem, hp⟩ := List.mem_filter.mp hpr
      obtain ⟨j, e2⟩ := pr
      cases hfst
      rw [List.mk_mem_enum_iff_getElem?] at hmem
      rw [he] at hmem
      cases Option.some_injective _ hmem
      exact hp
    · intro hp
      refine List.mem_map.mpr ⟨(i, e), List.mem_filter.mpr
        ⟨List.mk_mem_enum_iff_getElem?.mpr he, hp⟩, rfl⟩
  · rw [hfiltered]
    have h1 : List.Sublist
        ((app.all_entries.enum.filter
            (fun p => matchesFilter (lowerStr app.filter_input) p.2)).map
          (fun p => p.1))
        (app.all_entries.enum.map (fun p => p.1)) :=
      (List.filter_sublist _).map _
    have h2 : app.all_entries.enum.map (fun p => p.1)
        = List.range app.all_entries.length := List.enum_map_fst _
    rw [h2] at h1
    exact h1

/-- Closed instantiation of the filter-membership theorem on a concrete
state whose upper-case filter text matches one of two records. -/
theorem c2_filter_membership_witness :
    (0 ∈ sampleFilterApp.apply_filter.filtered_entries ↔
      (containsSub (lowerStr (fileName "/bin/tool".toList))
          (lowerStr sampleFilterApp.filter_input)
        || containsSub (lowerStr "aa".toList)
          (lowerStr sampleFilterApp.filter_input)
        || containsSub (lowerStr "/bin/tool".toList)
          (lowerStr sampleFilterApp.filter_input)) = true)
    ∧ sampleFilterApp.apply_filter.filtered_entries.Sublist
        (List.range sampleFilterApp.all_entries.length) :=
  ⟨(c2_filter_membership sampleFilterApp (by decide)).1 0
      { timestamp := 0, repo := "aa".toList, path := "/bin/tool".toList,
        removed := false, size := none } (by decide),
   (c2_filter_membership sampleFilterApp (by decide)).2⟩

/-- C7: loading is total and lenient: a missing or unreadable file loads as
the empty record set, a line with fewer than three fields or an unparsable
timestamp is skipped, a line with at least three fields and a parsable
timestamp yields a record, and the load result keeps exactly the records of
the surviving lines, only reordered by the final sort. -/
theorem c7_load_never_fails (parseTs : Str → Option Int)
    (stat : Str → Option Nat) :
    load_log parseTs stat none = []
    ∧ (∀ line, (splitOnChar '\t' line).length < 3 →
        parseLine parseTs stat line = none)
    ∧ (∀ line, parseTs ((splitOnChar '\t' line).getD 0 []) = none →
        parseLine parseTs stat line = none)
    ∧ (∀ line t, 3 ≤ (splitOnChar '\t' line).length →
        parseTs ((splitOnChar '\t' line).getD 0 []) = some t →
        ∃ e, parseLine parseTs stat line = some e)
    ∧ (∀ contents, List.Perm (load_log parseTs stat (some contents))
        ((rustLines contents).filterMap (parseLine parseTs stat))) := by
  refine ⟨?_, ?_, ?_, ?_, ?_⟩
  · have hrl : rustLines ([] : Str) = [] := rfl
    simp [load_log, hrl]
  · intro line hlt
    unfold parseLine
    rw [if_pos hlt]
  · intro line hts
    unfold parseLine
    by_cases hlt : (splitOnChar '\t' line).length < 3
    · rw [if_pos hlt]
    · rw [if_neg hlt]
      dsimp only
      rw [hts]
  · intro line t hge hts
    unfold parseLine
    rw [if_neg (Nat.not_lt.mpr hge)]
    dsimp only
    rw [hts]
    exact ⟨_, rfl⟩
  · intro contents
    exact List.mergeSort_perm _ _

/-- Closed instantiation of the lenient-load theorem: a malformed line and a
line with an unparsable timestamp are both skipped by a concrete parser. -/
theorem c7_load_never_fails_witness :
    ((splitOnChar '\t' "only two\tfields".toList).length < 3
      ∧ parseLine (fun s => if s == "2024".toList then some 5 else none)
          (fun _ => some 7) "only two\tfields".toList = none)
    ∧ parseLine (fun s => if s == "2024".toList then some 5 else none)
        (fun _ => some 7) "bad\ta\tp".toList = none :=
  ⟨⟨by decide,
    (c7_load_never_fails (fun s => if s == "2024".toList then some 5 else none)
      (fun _ => some 7)).2.1 ("only two\tfields".toList) (by decide)⟩,
   (c7_load_never_fails (fun s => if s == "2024".toList then some 5 else none)
      (fun _ => some 7)).2.2.1 ("bad\ta\tp".toList) (by decide)⟩

/-- C8: the loaded record list is pairwise sorted by timestamp descending,
and the sort is stable: for every timestamp value, the records carrying it
appear in the same order as in the pre-sort line-ordered record list. -/
theorem c8_load_sorted_descending_stable (parseTs : Str → Option Int)
    (stat : Str → Option Nat) (readResult : Option Str) :
    (load_log parseTs stat readResult).Pairwise
        (fun a b => b.timestamp ≤ a.timestamp)
    ∧ ∀ t : Int,
        (load_log parseTs stat readResult).filter
            (fun e => e.timestamp == t)
          = ((rustLines (readResult.getD [])).filterMap
              (parseLine parseTs stat)).filter (fun e => e.timestamp == t) := by
  have htrans : ∀ a b c : InstallEntry,
      decide (b.timestamp ≤ a.timestamp) = true →
      decide (c.timestamp ≤ b.timestamp) = true →
      decide (c.timestamp ≤ a.timestamp) = true := by
    intro a b c h1 h2
    simp only [decide_eq_true_eq] at h1 h2 ⊢
    exact le_trans h2 h1
  have htotal : ∀ a b : InstallEntry,
      (decide (b.timestamp ≤ a.timestamp)
        || decide (a.timestamp ≤ b.timestamp)) = true := by
    intro a b
    simp only [Bool.or_eq_true, decide_eq_true_eq]
    exact Int.le_total b.timestamp a.timestamp
  constructor
  · simp only [load_log]
    refine List.Pairwise.imp ?_ (List.sorted_mergeSort htrans htotal _)
    intro a b h
    exact of_decide_eq_true h
  · intro t
    simp only [load_log]
    set l := (rustLines (readResult.getD [])).filterMap (parseLine parseTs stat)
      with hldef
    set p : InstallEntry → Bool := fun e => e.timestamp == t with hpdef
    have hmemts : ∀ e ∈ l.filter p, e.timestamp = t := by
      intro e he
      have hbe := List.of_mem_filter he
      rw [hpdef] at hbe
      exact eq_of_beq hbe
    have hpair : (l.filter p).Pairwise
        (fun a b => decide (b.timestamp ≤ a.timestamp) = true) := by
      refine List.pairwise_of_forall_mem_list ?_
      intro a ha b hb
      rw [hmemts a ha, hmemts b hb]
      simp
    have hsub : List.Sublist (l.filter p) l := List.filter_sublist l
    have hstab := List.sublist_mergeSort htrans htotal hpair hsub
    have hperm := (List.mergeSort_perm l
        (fun a b => decide (b.timestamp ≤ a.timestamp))).filter p
    have hsub2 : List.Sublist (l.filter p)
        ((l.mergeSort (fun a b => decide (b.timestamp ≤ a.timestamp))).filter
          p) := by
      have h3 := hstab.filter p
      rw [List.filter_filter] at h3
      simpa [Bool.and_self] using h3
    exact (hsub2.eq_of_length hperm.length_eq.symm).symm

/-- C10: a log line with at least four tab-separated fields whose fourth
field is not the literal marker parses as a not-removed record whose size is
resolved through the filesystem oracle, while the mark-removed rewrite
leaves the very same line unchanged, so the record can never become marked
through that operation. -/
theorem c10_unknown_marker_not_markable (parseTs : Str → Option Int)
    (stat : Str → Option Nat) (line path : Str) (t : Int)
    (h4 : 4 ≤ (splitOnChar '\t' line).length)
    (hm : (splitOnChar '\t' line).getD 3 [] ≠ "removed".toList)
    (hp : (splitOnChar '\t' line).getD 2 [] = path)
    (ht : parseTs ((splitOnChar '\t' line).getD 0 []) = some t) :
    parseLine parseTs stat line
      = some { timestamp := t,
               repo := (splitOnChar '\t' line).getD 1 [],
               path := path,
               removed := false,
               size := stat path }
    ∧ markLine path line = line := by
  obtain ⟨x, hx⟩ : ∃ x, (splitOnChar '\t' line).get? 3 = some x := by
    cases hg : (splitOnChar '\t' line).get? 3 with
    | none =>
      rw [List.get?_eq_none] at hg
      omega
    | some x => exact ⟨x, rfl⟩
  have hxval : x = (splitOnChar '\t' line).getD 3 [] := by
    rw [List.getD_eq_getElem?_getD, ← List.get?_eq_getElem?, hx]
    rfl
  have hne : (x == "removed".toList) = false :=
    beq_eq_false_iff_ne.mpr (hxval ▸ hm)
  constructor
  · unfold parseLine
    rw [if_neg (by omega)]
    dsimp only
    rw [ht, hx, hp]
    dsimp only [Option.map, Option.getD]
    rw [hne]
    rfl
  · rw [markLine_eq]
    refine if_neg (fun hc => ?_)
    have := hc.1
    omega

/-- Closed instantiation of the unknown-fourth-field theorem on a concrete
line whose fourth field reads gone. -/
theorem c10_unknown_marker_not_markable_witness :
    parseLine (fun s => if s == "2024".toList then some 5 else none)
        (fun _ => some 7) "2024\ta\tp\tgone".toList
      = some { timestamp := 5,
               repo := (splitOnChar '\t' "2024\ta\tp\tgone".toList).getD 1 [],
               path := "p".toList,
               removed := false,
               size := (fun _ => some 7) "p".toList }
    ∧ markLine "p".toList "2024\ta\tp\tgone".toList
        = "2024\ta\tp\tgone".toList :=
  c10_unknown_marker_not_markable
    (fun s => if s == "2024".toList then some 5 else none) (fun _ => some 7)
    "2024\ta\tp\tgone".toList "p".toList 5
    (by decide) (by decide) (by decide) (by decide)

end Eget
